import Mathlib

/-!
Verification of the graph-construction core of the osr routing library
(src/ways.cc) against its specification.

The development shallowly embeds the data model and the operations of
ways.cc:

- way_nodes_ (each way's ordered internal nodes) is a list of lists of
  naturals; node_ways_ (the ways touching a node) is derived from it
  exactly as connect_ways builds it: the ways containing the node, in
  ascending way order.
- build_components (flood fill over the way-adjacency graph),
  compute_big_street_neighbors (depth-limited expansion),
  add_restriction (sorting, grouping by via node, per-record forbidden
  pairs) and the per-way loop of connect_ways are translated statement
  by statement from the source.
- Machine integers are naturals with explicit reduction modulo 2 to the
  16 where the source stores into 16-bit fields.
- Collaborators whose code is outside the translated file (the
  multi-counter bit-set, the paged bucket column used by the
  restriction lists, get_way_pos) are modelled from the specification,
  which defines their contract; each such definition carries a doc
  comment saying so.
-/

namespace osr

/-- The way_nodes_ column: for every way, its ordered internal node ids. -/
abbrev WayNodes := List (List Nat)

/-- Contents of way_nodes_ for one way; out-of-range ways have no nodes. -/
def wayNodesOf (wn : WayNodes) (w : Nat) : List Nat := wn.getD w []

/-- The node_ways_ column as connect_ways builds it: the ways whose node list
contains the node, in ascending way order (connect_ways iterates ways in
ascending order and appends the current way to the bucket of every internal
node it contains). Repeated occurrences of a node inside one way would add
duplicates; the flood fill and the big-street expansion are insensitive to
duplicates, so the derived form lists each touching way once. -/
def nodeWaysOf (wn : WayNodes) (n : Nat) : List Nat :=
  (List.range wn.length).filter (fun w => decide (n ∈ wayNodesOf wn w))

/-- The pairs visited by the nested loops "for n in way_nodes_[x]: for w in
node_ways_[n]", flattened in visiting order. -/
def neighborsOf (wn : WayNodes) (x : Nat) : List Nat :=
  (wayNodesOf wn x).flatMap (fun n => nodeWaysOf wn n)

/-- Two ways are adjacent when they share an internal node. -/
def Adjacent (wn : WayNodes) (a b : Nat) : Prop :=
  ∃ n, n ∈ wayNodesOf wn a ∧ n ∈ wayNodesOf wn b

/-- Connectivity through chains of shared internal nodes. -/
def ConnectedWays (wn : WayNodes) : Nat → Nat → Prop :=
  Relation.ReflTransGen (Adjacent wn)

/-- way_component_: for every way, its component id, none standing for the
invalid sentinel component_idx_t::invalid(). -/
abbrev Comp := List (Option Nat)

/-- Number of ways still at the invalid sentinel (termination measure of the
flood fill). -/
def countNone (c : Comp) : Nat := c.countP (fun o => o.isNone)

/-- Inner double loop of one flood-fill round: for every way w in the given
list (the ways touching some node of the dequeued way), if way_component_[w]
is invalid, set it to c and record w for insertion into the work set. The
default some 0 for out-of-range indices mirrors that the source never reads
out of range (every w comes from node_ways_, hence is a valid way). -/
def assignAll (c : Nat) : List Nat → Comp → Comp × List Nat
  | [], comp => (comp, [])
  | w :: ws, comp =>
    match comp.getD w (some 0) with
    | none =>
      let r := assignAll c ws (comp.set w (some c))
      (r.1, w :: r.2)
    | some _ => assignAll c ws comp

/-- The flood_fill lambda of build_components: repeatedly take a way from the
work set and label all yet-unlabeled ways reachable over one shared node,
until the work set is empty. The source's hash_set yields its elements in an
unspecified order; the embedding processes the work set front-first, which is
one admissible order, and the labeling it computes is the one the claims are
about. -/
def floodFill (wn : WayNodes) (c : Nat) : Comp → List Nat → Comp
  | comp, [] => comp
  | comp, next :: q =>
    let r := assignAll c (neighborsOf wn next) comp
    floodFill wn c r.1 (q ++ r.2)
termination_by comp q => 2 * countNone comp + q.length
decreasing_by
  have h : countNone (assignAll c (neighborsOf wn next) comp).1 +
      (assignAll c (neighborsOf wn next) comp).2.length = countNone comp := by
    clear r
    induction (neighborsOf wn next) generalizing comp with
    | nil => simp [assignAll]
    | cons w ws ih =>
      cases hc : comp.getD w (some 0) with
      | none =>
        have hw : w < comp.length := by
          by_contra hw
          rw [List.getD_eq_getElem?_getD, List.getElem?_eq_none (by omega)] at hc
          exact Option.noConfusion hc
        have hgetE : comp[w] = none := by
          rw [List.getD_eq_getElem?_getD, List.getElem?_eq_getElem hw] at hc
          simpa using hc
        have hpos : 0 < countNone comp := by
          rw [countNone, List.countP_pos_iff]
          exact ⟨none, hgetE ▸ List.getElem_mem hw, rfl⟩
        have hcount : countNone (comp.set w (some c)) = countNone comp - 1 := by
          rw [countNone, List.countP_set _ _ _ _ hw]
          simp [hgetE, countNone]
        have := ih (comp.set w (some c))
        simp only [assignAll, hc, List.length_cons]
        omega
      | some v =>
        simp only [assignAll, hc]
        exact ih comp
  simp only [List.length_append, List.length_cons]
  omega

/-- One iteration of the main loop of build_components: skip the way if its
component is already assigned, otherwise give it the next fresh component id
and flood-fill from it. -/
def buildStep (wn : WayNodes) (st : Comp × Nat) (i : Nat) : Comp × Nat :=
  match st.1.getD i (some 0) with
  | some _ => st
  | none => (floodFill wn st.2 (st.1.set i (some st.2)) [i], st.2 + 1)

/-- ways::build_components: resize way_component_ to n_ways() filled with the
invalid sentinel, then process ways in ascending id order. -/
def build_components (wn : WayNodes) : Comp :=
  ((List.range wn.length).foldl (buildStep wn) (List.replicate wn.length none, 0)).1

/-- The expand lambda of compute_big_street_neighbors specialized to
go_further = false: scan the (node, way) pairs of way x; an originally-major
way stops the scan with success; otherwise the way is inserted into the done
set (the emplace happens unconditionally) and, go_further being false, no
recursion takes place. The list argument carries the remaining pairs of the
scan. -/
def expandNoFurther (orig : Nat → Bool) : List Nat → List Nat → Bool × List Nat
  | [], done => (false, done)
  | w :: ws, done =>
    if orig w then (true, done)
    else if w ∈ done then expandNoFurther orig ws done
    else expandNoFurther orig ws (w :: done)

/-- The expand lambda of compute_big_street_neighbors with go_further = true,
scanning the (node, way) pairs of way x: an originally-major way stops the
scan; a way newly inserted into the done set triggers the recursive call
recurse(x, false, recurse) --- note the source recurses on x itself, not on
the neighbor w --- whose updated done set is threaded into the rest of the
scan. -/
def expandGoFurther (wn : WayNodes) (orig : Nat → Bool) (x : Nat) :
    List Nat → List Nat → Bool × List Nat
  | [], done => (false, done)
  | w :: ws, done =>
    if orig w then (true, done)
    else if w ∈ done then expandGoFurther wn orig x ws done
    else
      match expandNoFurther orig (neighborsOf wn x) (w :: done) with
      | (true, d) => (true, d)
      | (false, d) => expandGoFurther wn orig x ws d

/-- ways::compute_big_street_neighbors: orig is the snapshot of the per-way
is_big_street flags taken before the parallel pass; every way runs
independently with a private done set seeded with itself, and its final flag
is its original flag or the result of the expansion. -/
def compute_big_street_neighbors (wn : WayNodes) (orig : Nat → Bool) : List Bool :=
  (List.range wn.length).map (fun way =>
    orig way || (expandGoFurther wn orig way (neighborsOf wn way) [way]).1)

/-- The two kinds of resolved_restriction records. -/
inductive restriction_type
  | kNo
  | kOnly
deriving DecidableEq, Repr

/-- A resolved turn-restriction record: via internal node, from way, to way,
and the restriction kind. -/
structure resolved_restriction where
  type_ : restriction_type
  from_ : Nat
  to_ : Nat
  via_ : Nat
deriving DecidableEq, Repr

/-- Modelled from the spec: ways::get_way_pos (declared in ways.h, outside the
translated file) resolves a way reference to its occupancy slot at a node,
the way's rank among the ways touching that node (spec, sections 3 and 4.4).
node_ways is the per-node list of touching ways; the slot is the index of the
way's occurrence in it. -/
def get_way_pos (node_ways : Nat → List Nat) (n w : Nat) : Nat :=
  (node_ways n).findIdx (fun y => y == w)

/-- The forbidden (from-slot, to-slot) pairs one record appends to the
restriction list of its via node: a kNo record contributes the single
resolved pair; a kOnly record contributes, for every ordered pair of
enumerated ways touching the via node, the index pair whenever the first way
is the allowed from way and the second is not the allowed to way. -/
def restriction_pairs (node_ways : Nat → List Nat) (x : resolved_restriction) :
    List (Nat × Nat) :=
  match x.type_ with
  | .kNo =>
    [(get_way_pos node_ways x.via_ x.from_, get_way_pos node_ways x.via_ x.to_)]
  | .kOnly =>
    (node_ways x.via_).enum.flatMap (fun iw =>
      (node_ways x.via_).enum.filterMap (fun jt =>
        if x.from_ = iw.2 ∧ x.to_ ≠ jt.2 then some (iw.1, jt.1) else none))

/-- The restriction-side state of the store: node_restrictions_ (per node,
the list of forbidden slot pairs) and node_is_restricted_ (the nodes marked
restricted, in marking order). -/
structure rstate where
  node_restrictions : List (List (Nat × Nat))
  node_is_restricted : List Nat
deriving DecidableEq, Repr

/-- Modelled from the spec: resize of the paged bucket column holding
node_restrictions_ (the column type lives outside the translated file). The
spec describes the resize calls of add_restriction as ensuring the column is
large enough to index the via node (section 4.4) and prescribes
sparse-map-with-empty-default semantics for reimplementation (section 9):
growing appends empty buckets, existing buckets are never moved or dropped. -/
def ensure_size (l : List (List (Nat × Nat))) (n : Nat) : List (List (Nat × Nat)) :=
  l ++ List.replicate (n - l.length) []

/-- Appending pairs to the bucket of node v (the push_back calls on
node_restrictions_[via]). -/
def bucket_push (l : List (List (Nat × Nat))) (v : Nat) (ps : List (Nat × Nat)) :
    List (List (Nat × Nat)) :=
  l.set v (l.getD v [] ++ ps)

/-- Body of the equal_ranges_linear callback in add_restriction: for one
maximal run of records sharing a via node, grow node_restrictions_ to index
the via node, mark the node restricted, and append every record's forbidden
pairs to the via node's bucket. -/
def process_group (node_ways : Nat → List Nat) (st : rstate)
    (g : List resolved_restriction) : rstate :=
  match g with
  | [] => st
  | x0 :: _ =>
    { node_restrictions :=
        g.foldl (fun acc x => bucket_push acc x.via_ (restriction_pairs node_ways x))
          (ensure_size st.node_restrictions (x0.via_ + 1)),
      node_is_restricted := st.node_is_restricted ++ [x0.via_] }

/-- utl::equal_ranges_linear on the sorted batch: split into maximal runs of
records with equal via node. -/
def equal_ranges_by_via : List resolved_restriction → List (List resolved_restriction)
  | [] => []
  | x :: xs =>
    (x :: xs.takeWhile (fun y => y.via_ == x.via_)) ::
      equal_ranges_by_via (xs.dropWhile (fun y => y.via_ == x.via_))
termination_by l => l.length
decreasing_by
  simp only [List.length_cons, Nat.lt_succ_iff]
  exact List.Sublist.length_le (List.dropWhile_sublist _)

/-- Ordering of restriction records by via node. -/
def restriction_le (a b : resolved_restriction) : Prop := a.via_ ≤ b.via_

instance : DecidableRel restriction_le := fun a b => Nat.decLe a.via_ b.via_

instance : IsTotal resolved_restriction restriction_le :=
  ⟨fun a b => Nat.le_total a.via_ b.via_⟩

instance : IsTrans resolved_restriction restriction_le :=
  ⟨fun _ _ _ h1 h2 => Nat.le_trans h1 h2⟩

/-- The in-place utl::sort of the input batch by ascending via node. The
source's std::sort may order records with equal via nodes arbitrarily; the
embedding fixes one admissible order (insertion sort, which is a sorted
permutation of the input). -/
def sort_restrictions (rs : List resolved_restriction) : List resolved_restriction :=
  rs.insertionSort restriction_le

/-- ways::add_restriction: sort the batch by via node, process the maximal
equal-via runs in order, then pad node_restrictions_ to cover the full
internal-node range (num_nodes = node_to_osm_.size()). -/
def add_restriction (node_ways : Nat → List Nat) (num_nodes : Nat)
    (rs : List resolved_restriction) (st : rstate) : rstate :=
  let st1 := (equal_ranges_by_via (sort_restrictions rs)).foldl (process_group node_ways) st
  { st1 with node_restrictions := ensure_size st1.node_restrictions num_nodes }

/-- All pairs one batch contributes to node v's restriction list, in
processing order. -/
def batch_pairs (node_ways : Nat → List Nat) (rs : List resolved_restriction)
    (v : Nat) : List (Nat × Nat) :=
  ((sort_restrictions rs).filter (fun x => x.via_ == v)).flatMap
    (restriction_pairs node_ways)

/-- Modelled from the spec: the node-id assignment block of connect_ways.
The multi-counter bit-set (outside the translated file) marks the external
node ids touched by more than one way and iterates its set bits in ascending
order (spec, sections 4.1 and 4.2); connect_ways appends one node_to_osm
entry per set bit. is_multi is the bit-set, num_osm_nodes its universe
size. -/
def node_to_osm (is_multi : Nat → Bool) (num_osm_nodes : Nat) : List Nat :=
  (List.range num_osm_nodes).filter is_multi

/-- Per-way output of the edge-building loop of connect_ways: the way's
internal nodes, the stored 16-bit segment distances, the stored 16-bit
in-way position of each internal node, and whether the non-fatal
node-count diagnostic was printed. -/
structure way_build_result where
  nodes : List Nat
  dists : List Nat
  in_way_idx : List Nat
  overflow_diagnostic : Bool
deriving DecidableEq, Repr

/-- Capacity of the 16-bit fields. -/
def U16 : Nat := 65536

/-- The stored segment distance: std::round of the accumulated distance,
reduced into the 16-bit field. -/
def store_dist (q : ℚ) : Nat := (round q).toNat % U16

/-- The distance accumulation at the top of one loop iteration: when a
predecessor point exists, add the geographic distance from it to the current
point. dist abstracts geo::distance. -/
def step_dist {pt : Type} (dist : pt → pt → ℚ) (pred_pos : Option pt) (pos : pt)
    (d : ℚ) : ℚ :=
  match pred_pos with
  | some pp => d + dist pos pp
  | none => d

/-- The conditional push of the rounded accumulated distance: a distance is
stored only when a previous internal node exists in the way (from is not the
invalid sentinel). -/
def push_dist (fromN : Option Nat) (q : ℚ) : List Nat :=
  match fromN with
  | some _ => [store_dist q]
  | none => []

/-- The per-way loop of connect_ways, one iteration per (external node,
point) pair: accumulate the distance from the predecessor point; at every
multiply-referenced node, record the internal node, the in-way position i,
and --- when a previous internal node exists --- the rounded accumulated
distance; print the non-fatal diagnostic when i has reached the top of the
16-bit range; increment i with 16-bit wraparound. -/
def connect_way_loop {pt : Type} (is_multi : Nat → Bool) (node_idx_of : Nat → Nat)
    (dist : pt → pt → ℚ) :
    List (Nat × pt) → Option pt → Option Nat → ℚ → Nat → way_build_result →
      way_build_result
  | [], _, _, _, _, acc => acc
  | x :: rest, pred_pos, fromN, distance, i, acc =>
    if is_multi x.1 then
      connect_way_loop is_multi node_idx_of dist rest (some x.2)
        (some (node_idx_of x.1)) 0 ((i + 1) % U16)
        { nodes := acc.nodes ++ [node_idx_of x.1]
          dists := acc.dists ++ push_dist fromN (step_dist dist pred_pos x.2 distance)
          in_way_idx := acc.in_way_idx ++ [i]
          overflow_diagnostic := acc.overflow_diagnostic || (i == U16 - 1) }
    else
      connect_way_loop is_multi node_idx_of dist rest (some x.2) fromN
        (step_dist dist pred_pos x.2 distance) i acc

/-- Processing of one way by connect_ways. pt0 is the value-initialized point
the source puts into pred_pos up front (std::make_optional constructs an
engaged optional), so the very first iteration already accumulates a
distance; that accumulation is discarded at the first internal node, before
anything is stored. -/
def connect_way {pt : Type} (is_multi : Nat → Bool) (node_idx_of : Nat → Nat)
    (dist : pt → pt → ℚ) (pt0 : pt) (osm_nodes : List (Nat × pt)) : way_build_result :=
  connect_way_loop is_multi node_idx_of dist osm_nodes (some pt0) none 0 0 ⟨[], [], [], false⟩

/-- The fatal message of the utl::verify in get_access_restriction, carrying
the way's external id. -/
def access_err_msg (osm_way_id : Nat) : String :=
  "access restriction for way with access restriction not found way=" ++
    toString osm_way_id

/-- The columns get_access_restriction reads: the presence bit-set, the
sorted (way, string reference) association column, the string pool, and the
way to external-id column. -/
structure ways_store where
  way_has_conditional_access_no : Nat → Bool
  way_conditional_access_no : List (Nat × Nat)
  strings : List String
  way_osm_idx : Nat → Nat

/-- ways::get_access_restriction: absent presence bit means no restriction
(ok none); otherwise std::lower_bound finds the first association whose key
is not below the way --- on the sorted column this is the suffix after
dropping the keys below the way --- and the utl::verify aborts with the
descriptive message unless that association exists and matches exactly. -/
def get_access_restriction (s : ways_store) (way : Nat) : Except String (Option String) :=
  if s.way_has_conditional_access_no way = false then Except.ok none
  else
    match s.way_conditional_access_no.dropWhile (fun a => a.1 < way) with
    | [] => Except.error (access_err_msg (s.way_osm_idx way))
    | (k, v) :: _ =>
      if k = way then Except.ok (some (s.strings.getD v ""))
      else Except.error (access_err_msg (s.way_osm_idx way))

/-- C10: ways::add_restriction reorders its input batch in place; afterwards
the vector is a permutation of the original records (so no field of any
record is modified, records are only moved) sorted by ascending via node.
sort_restrictions is the embedding of the utl::sort call on line 67. -/
theorem C10_sort_batch_in_place (rs : List resolved_restriction) :
    (sort_restrictions rs).Perm rs ∧ List.Sorted restriction_le (sort_restrictions rs) :=
  ⟨List.perm_insertionSort restriction_le rs, List.sorted_insertionSort restriction_le rs⟩

/-- C5: connect_ways creates one internal node per external node id marked
multiply-referenced and none for the others, and node_to_osm is strictly
increasing in external id (strict sortedness also gives that no external id
receives two internal nodes; nodup is stated explicitly as well). -/
theorem C5_node_creation (is_multi : Nat → Bool) (num_osm_nodes : Nat) :
    List.Sorted (fun a b => a < b) (node_to_osm is_multi num_osm_nodes)
    ∧ (node_to_osm is_multi num_osm_nodes).Nodup
    ∧ ∀ x, x ∈ node_to_osm is_multi num_osm_nodes ↔
        (x < num_osm_nodes ∧ is_multi x = true) := by
  refine ⟨?_, ?_, ?_⟩
  · exact List.Pairwise.sublist (List.filter_sublist _) (List.pairwise_lt_range num_osm_nodes)
  · exact List.Nodup.filter _ (List.nodup_range num_osm_nodes)
  · intro x
    rw [node_to_osm, List.mem_filter, List.mem_range]

/-- On a column strictly sorted by key, dropping the keys below a present key
lands exactly on that key's association (correctness of the std::lower_bound
step of get_access_restriction). -/
theorem dropWhile_lands_on_key {l : List (Nat × Nat)} {way v : Nat}
    (hs : l.Pairwise (fun a b => a.1 < b.1)) (hm : (way, v) ∈ l) :
    ∃ rest, l.dropWhile (fun a => a.1 < way) = (way, v) :: rest := by
  induction l with
  | nil => cases hm
  | cons a t ih =>
    rw [List.pairwise_cons] at hs
    rcases List.mem_cons.mp hm with hm1 | hm1
    · refine ⟨t, ?_⟩
      rw [List.dropWhile_cons, if_neg (by simp [← hm1])]
      rw [← hm1]
    · have ha : a.1 < way := hs.1 (way, v) hm1
      obtain ⟨rest, hr⟩ := ih hs.2 hm1
      refine ⟨rest, ?_⟩
      rw [List.dropWhile_cons, if_pos (by simpa using ha)]
      exact hr

/-- C8: get_access_restriction returns the empty result exactly when the
presence bit is unset; with the bit set and no matching association it fails
with the descriptive message carrying the way's external id; with the bit set
and a matching association in the sorted column it returns the associated
string. -/
theorem C8_access_restriction_lookup (s : ways_store) (way : Nat)
    (hs : s.way_conditional_access_no.Pairwise (fun a b => a.1 < b.1)) :
    (get_access_restriction s way = Except.ok none ↔
      s.way_has_conditional_access_no way = false)
    ∧ (s.way_has_conditional_access_no way = true →
        (∀ e ∈ s.way_conditional_access_no, e.1 ≠ way) →
        get_access_restriction s way = Except.error (access_err_msg (s.way_osm_idx way)))
    ∧ (∀ v, s.way_has_conditional_access_no way = true →
        (way, v) ∈ s.way_conditional_access_no →
        get_access_restriction s way = Except.ok (some (s.strings.getD v ""))) := by
  refine ⟨⟨fun h => ?_, fun h => ?_⟩, fun hb hmiss => ?_, fun v hb hmem => ?_⟩
  · by_contra hbit
    rw [Bool.not_eq_false] at hbit
    rw [get_access_restriction, if_neg (by simp [hbit])] at h
    split at h
    · exact Except.noConfusion h
    · split at h
      · exact Option.noConfusion (Except.ok.inj h)
      · exact Except.noConfusion h
  · rw [get_access_restriction, if_pos h]
  · rw [get_access_restriction, if_neg (by simp [hb])]
    split
    · rfl
    · rename_i k v tail heq
      have hk : k ≠ way := by
        refine hmiss (k, v) ?_
        exact List.Sublist.mem (heq ▸ List.mem_cons_self _ _) (List.dropWhile_sublist _)
      rw [if_neg hk]
  · rw [get_access_restriction, if_neg (by simp [hb])]
    obtain ⟨rest, hr⟩ := dropWhile_lands_on_key hs hmem
    split
    · rename_i heq
      rw [hr] at heq
      exact List.noConfusion heq
    · rename_i k v2 tail heq
      rw [hr] at heq
      obtain ⟨hkv, -⟩ := List.cons.inj heq
      cases hkv
      simp

/-- Witness for C8 at a concrete store: way 2 has the bit and the
association, way 5 has the bit but no association, way 7 has no bit. -/
theorem C8_access_restriction_lookup_witness :
    List.Pairwise (fun a b => a.1 < b.1) [((2 : Nat), (0 : Nat))] ∧
      ((get_access_restriction ⟨fun w => w == 2 || w == 5, [(2, 0)], ["s"], fun w => w + 100⟩ 2 =
          Except.ok none ↔
          (fun w : Nat => w == 2 || w == 5) 2 = false)
        ∧ ((fun w : Nat => w == 2 || w == 5) 2 = true →
            (∀ e ∈ [((2 : Nat), (0 : Nat))], e.1 ≠ 2) →
            get_access_restriction ⟨fun w => w == 2 || w == 5, [(2, 0)], ["s"], fun w => w + 100⟩ 2 =
              Except.error (access_err_msg ((fun w : Nat => w + 100) 2)))
        ∧ ∀ v, (fun w : Nat => w == 2 || w == 5) 2 = true →
            ((2 : Nat), v) ∈ [((2 : Nat), (0 : Nat))] →
            get_access_restriction ⟨fun w => w == 2 || w == 5, [(2, 0)], ["s"], fun w => w + 100⟩ 2 =
              Except.ok (some ((["s"] : List String).getD v ""))) :=
  ⟨by decide,
   C8_access_restriction_lookup ⟨fun w => w == 2 || w == 5, [(2, 0)], ["s"], fun w => w + 100⟩ 2
     (by decide)⟩

/-- The go_further = false scan succeeds exactly when an originally-major way
occurs in the scanned pair list; the done set only controls insertions, not
the outcome. -/
theorem expandNoFurther_fst_iff (orig : Nat → Bool) (l done : List Nat) :
    ((expandNoFurther orig l done).1 = true ↔ ∃ w ∈ l, orig w = true) := by
  induction l generalizing done with
  | nil => simp [expandNoFurther]
  | cons w ws ih =>
    by_cases h : orig w = true
    · simp [expandNoFurther, h]
    · by_cases hd : w ∈ done
      · rw [expandNoFurther, if_neg (by simp [h]), if_pos hd, ih]
        simp [h]
      · rw [expandNoFurther, if_neg (by simp [h]), if_neg hd, ih]
        simp [h]

/-- The go_further = true scan of way x over pair list l succeeds exactly
when l holds an originally-major way, or the recursion trigger fires (some
way of l is new and not originally major) and the rescan of x's own pairs
finds an originally-major way. The recursion of the source rescans x, so no
way outside x's own pair list is ever consulted. -/
theorem expandGoFurther_fst_iff (wn : WayNodes) (orig : Nat → Bool) (x : Nat)
    (l done : List Nat) :
    ((expandGoFurther wn orig x l done).1 = true ↔
      (∃ w ∈ l, orig w = true) ∨
        ((∃ w ∈ neighborsOf wn x, orig w = true) ∧
          ∃ w ∈ l, orig w = false ∧ w ∉ done)) := by
  induction l generalizing done with
  | nil => simp [expandGoFurther]
  | cons w ws ih =>
    by_cases h : orig w = true
    · simp [expandGoFurther, h]
    · have hw : orig w = false := by simpa using h
      by_cases hd : w ∈ done
      · rw [expandGoFurther, if_neg (by simp [h]), if_pos hd, ih]
        constructor
        · rintro (⟨u, hu1, hu2⟩ | ⟨hnb, u, hu1, hu2, hu3⟩)
          · exact Or.inl ⟨u, List.mem_cons_of_mem _ hu1, hu2⟩
          · exact Or.inr ⟨hnb, u, List.mem_cons_of_mem _ hu1, hu2, hu3⟩
        · rintro (⟨u, hu1, hu2⟩ | ⟨hnb, u, hu1, hu2, hu3⟩)
          · rcases List.mem_cons.mp hu1 with rfl | hu1
            · rw [hw] at hu2
              exact Bool.noConfusion hu2
            · exact Or.inl ⟨u, hu1, hu2⟩
          · rcases List.mem_cons.mp hu1 with rfl | hu1
            · exact absurd hd hu3
            · exact Or.inr ⟨hnb, u, hu1, hu2, hu3⟩
      · rw [expandGoFurther, if_neg (by simp [h]), if_neg hd]
        rcases hscan : expandNoFurther orig (neighborsOf wn x) (w :: done) with ⟨b, d⟩
        have hb := expandNoFurther_fst_iff orig (neighborsOf wn x) (w :: done)
        rw [hscan] at hb
        cases b with
        | true =>
          constructor
          · intro _
            exact Or.inr ⟨hb.mp rfl, w, List.mem_cons_self _ _, hw, hd⟩
          · intro _
            trivial
        | false =>
          simp only [ih]
          have hnonb : ¬∃ u ∈ neighborsOf wn x, orig u = true := by
            intro hc
            exact Bool.noConfusion (hb.mpr hc)
          constructor
          · rintro (⟨u, hu1, hu2⟩ | ⟨hnb, -⟩)
            · exact Or.inl ⟨u, List.mem_cons_of_mem _ hu1, hu2⟩
            · exact absurd hnb hnonb
          · rintro (⟨u, hu1, hu2⟩ | ⟨hnb, -⟩)
            · rcases List.mem_cons.mp hu1 with rfl | hu1
              · rw [hw] at hu2
                exact Bool.noConfusion hu2
              · exact Or.inl ⟨u, hu1, hu2⟩
            · exact absurd hnb hnonb

/-- Characterization of the propagator as implemented: a way ends up flagged
exactly when it is originally major or some way sharing a node with it is
originally major. The two-hop machinery of the source never reaches a way
outside the origin's own neighbor list, because the recursion re-expands the
origin way. -/
theorem compute_big_street_flag_iff (wn : WayNodes) (orig : Nat → Bool) (way : Nat)
    (h : way < wn.length) :
    (compute_big_street_neighbors wn orig)[way]? =
      some (orig way || decide (∃ w ∈ neighborsOf wn way, orig w = true)) := by
  rw [compute_big_street_neighbors, List.getElem?_map, List.getElem?_range h]
  simp only [Option.map_some']
  congr 1
  congr 1
  have hiff := expandGoFurther_fst_iff wn orig way (neighborsOf wn way) [way]
  have hiff2 : ((expandGoFurther wn orig way (neighborsOf wn way) [way]).1 = true ↔
      ∃ w ∈ neighborsOf wn way, orig w = true) := by
    rw [hiff]
    constructor
    · rintro (hp | ⟨hp, -⟩) <;> exact hp
    · intro hp
      exact Or.inl hp
  cases hres : (expandGoFurther wn orig way (neighborsOf wn way) [way]).1 with
  | true =>
    rw [hres] at hiff2
    exact (decide_eq_true (hiff2.mp rfl)).symm
  | false =>
    rw [hres] at hiff2
    refine (decide_eq_false ?_).symm
    intro hc
    exact Bool.noConfusion (hiff2.mpr hc)

/-- C1: evaluation of compute_big_street_neighbors at the failing input. Way
0 holds node 0 and is originally major; way 1 shares node 0 with way 0 (one
hop) and is flagged; way 2 holds node 1, shared only with way 1, so its
nearest originally-major way is two hops away --- the claim requires it to be
flagged, but the code leaves it unflagged because the depth-limited expansion
recurses on the origin way instead of the neighbor. -/
theorem C1_two_hop_way_not_flagged :
    compute_big_street_neighbors [[0], [0, 1], [1]] (fun w => w == 0) =
      [true, true, false] := by
  decide

theorem ensure_size_length (l : List (List (Nat × Nat))) (n : Nat) :
    (ensure_size l n).length = max l.length n := by
  rw [ensure_size, List.length_append, List.length_replicate]
  omega

/-- Growing the column never changes the contents any bucket is read with
(absent buckets read as empty either way). -/
theorem ensure_size_getD (l : List (List (Nat × Nat))) (n v : Nat) :
    (ensure_size l n).getD v [] = l.getD v [] := by
  rw [ensure_size]
  rcases Nat.lt_or_ge v l.length with h | h
  · exact List.getD_append _ _ _ _ h
  · rw [List.getD_eq_getElem?_getD, List.getD_eq_getElem?_getD, List.getElem?_append,
      if_neg (by omega), List.getElem?_eq_none h, List.getElem?_replicate]
    by_cases h2 : v - l.length < n - l.length
    · rw [if_pos h2]
      rfl
    · rw [if_neg h2]

theorem bucket_push_length (l : List (List (Nat × Nat))) (u : Nat) (ps : List (Nat × Nat)) :
    (bucket_push l u ps).length = l.length := List.length_set l u _

theorem bucket_push_getD (l : List (List (Nat × Nat))) (u : Nat) (ps : List (Nat × Nat))
    (v : Nat) (hu : u < l.length) :
    (bucket_push l u ps).getD v [] =
      if v = u then l.getD v [] ++ ps else l.getD v [] := by
  rw [bucket_push, List.getD_eq_getElem?_getD, List.getElem?_set]
  by_cases h : u = v
  · rw [if_pos h, if_pos hu, if_pos h.symm, ← h]
    rfl
  · rw [if_neg h, if_neg (fun hh => h hh.symm), List.getD_eq_getElem?_getD]

theorem foldl_bucket_push_length (node_ways : Nat → List Nat)
    (g : List resolved_restriction) (l : List (List (Nat × Nat))) :
    (g.foldl (fun acc x => bucket_push acc x.via_ (restriction_pairs node_ways x)) l).length
      = l.length := by
  induction g generalizing l with
  | nil => rfl
  | cons x t ih => rw [List.foldl_cons, ih, bucket_push_length]

/-- The per-record push_back loop of one equal-via run: bucket v receives, in
order, exactly the forbidden pairs of the run's records aimed at v. -/
theorem foldl_bucket_push_getD (node_ways : Nat → List Nat) (u : Nat)
    (g : List resolved_restriction) (hg : ∀ x ∈ g, x.via_ = u)
    (l : List (List (Nat × Nat))) (hu : u < l.length) (v : Nat) :
    (g.foldl (fun acc x => bucket_push acc x.via_ (restriction_pairs node_ways x)) l).getD v []
      = l.getD v [] ++
        (g.filter (fun x => x.via_ == v)).flatMap (restriction_pairs node_ways) := by
  induction g generalizing l with
  | nil => simp
  | cons x t ih =>
    have hx : x.via_ = u := hg x (List.mem_cons_self x t)
    rw [List.foldl_cons,
      ih (fun y hy => hg y (List.mem_cons_of_mem _ hy)) _
        (by rw [bucket_push_length]; exact hu),
      bucket_push_getD _ _ _ _ (hx ▸ hu)]
    by_cases hv : x.via_ = v
    · rw [if_pos hv.symm, List.filter_cons_of_pos (by simpa using hv),
        List.flatMap_cons, List.append_assoc]
    · rw [if_neg (fun hh => hv hh.symm), List.filter_cons_of_neg (by simpa using hv)]

theorem process_group_getD (node_ways : Nat → List Nat) (st : rstate)
    (g : List resolved_restriction) (u : Nat) (hg : ∀ x ∈ g, x.via_ = u) (v : Nat) :
    (process_group node_ways st g).node_restrictions.getD v [] =
      st.node_restrictions.getD v [] ++
        (g.filter (fun x => x.via_ == v)).flatMap (restriction_pairs node_ways) := by
  cases g with
  | nil => simp [process_group]
  | cons x0 t =>
    have h0 : x0.via_ = u := hg x0 (List.mem_cons_self x0 t)
    show ((x0 :: t).foldl (fun acc x => bucket_push acc x.via_ (restriction_pairs node_ways x))
        (ensure_size st.node_restrictions (x0.via_ + 1))).getD v [] = _
    rw [foldl_bucket_push_getD node_ways u _ hg _
      (by rw [ensure_size_length]; omega) v]
    rw [ensure_size_getD]

theorem process_group_length_cons (node_ways : Nat → List Nat) (st : rstate)
    (x0 : resolved_restriction) (t : List resolved_restriction) :
    (process_group node_ways st (x0 :: t)).node_restrictions.length =
      max st.node_restrictions.length (x0.via_ + 1) := by
  show ((x0 :: t).foldl (fun acc x => bucket_push acc x.via_ (restriction_pairs node_ways x))
      (ensure_size st.node_restrictions (x0.via_ + 1))).length = _
  rw [foldl_bucket_push_length, ensure_size_length]

/-- The run of the equal_ranges_linear callback over all equal-via runs:
bucket v receives exactly the pairs of the records aimed at v, in batch
order. -/
theorem foldl_process_group_getD (node_ways : Nat → List Nat)
    (gs : List (List resolved_restriction))
    (hgs : ∀ g ∈ gs, ∃ u, ∀ x ∈ g, x.via_ = u) (st : rstate) (v : Nat) :
    (gs.foldl (process_group node_ways) st).node_restrictions.getD v [] =
      st.node_restrictions.getD v [] ++
        ((gs.flatten.filter (fun x => x.via_ == v)).flatMap (restriction_pairs node_ways)) := by
  induction gs generalizing st with
  | nil => simp
  | cons g gs ih =>
    obtain ⟨u, hu⟩ := hgs g (List.mem_cons_self g gs)
    rw [List.foldl_cons, ih (fun g2 hg2 => hgs g2 (List.mem_cons_of_mem _ hg2)),
      process_group_getD node_ways st g u hu v,
      List.flatten_cons, List.filter_append, List.flatMap_append, List.append_assoc]

theorem equal_ranges_flatten (l : List resolved_restriction) :
    (equal_ranges_by_via l).flatten = l := by
  induction l using equal_ranges_by_via.induct with
  | case1 =>
    rw [equal_ranges_by_via]
    rfl
  | case2 x xs ih =>
    rw [equal_ranges_by_via, List.flatten_cons, ih, List.cons_append,
      List.takeWhile_append_dropWhile]

theorem equal_ranges_common (l : List resolved_restriction) :
    ∀ g ∈ equal_ranges_by_via l, ∃ u, ∀ x ∈ g, x.via_ = u := by
  induction l using equal_ranges_by_via.induct with
  | case1 =>
    intro g hg
    rw [equal_ranges_by_via] at hg
    cases hg
  | case2 x xs ih =>
    intro g hg
    rw [equal_ranges_by_via] at hg
    rcases List.mem_cons.mp hg with rfl | hg2
    · refine ⟨x.via_, fun y hy => ?_⟩
      rcases List.mem_cons.mp hy with rfl | hy2
      · rfl
      · have hb := @List.mem_takeWhile_imp _ (fun z => z.via_ == x.via_) xs y hy2
        exact eq_of_beq hb
    · exact ih g hg2

theorem equal_ranges_mem (l : List resolved_restriction) (g : List resolved_restriction)
    (hg : g ∈ equal_ranges_by_via l) (x : resolved_restriction) (hx : x ∈ g) : x ∈ l := by
  rw [← equal_ranges_flatten l, List.mem_flatten]
  exact ⟨g, hg, hx⟩

/-- Effect of one add_restriction call on the contents of any node's
restriction list: the batch appends exactly its pairs for that node, and
everything already stored stays in place. -/
theorem add_restriction_getD (node_ways : Nat → List Nat) (num_nodes : Nat)
    (rs : List resolved_restriction) (st : rstate) (v : Nat) :
    (add_restriction node_ways num_nodes rs st).node_restrictions.getD v [] =
      st.node_restrictions.getD v [] ++ batch_pairs node_ways rs v := by
  simp only [add_restriction]
  rw [ensure_size_getD,
    foldl_process_group_getD node_ways _ (equal_ranges_common _) st v,
    equal_ranges_flatten]
  rfl

theorem foldl_process_group_length_le (node_ways : Nat → List Nat)
    (gs : List (List resolved_restriction)) (N : Nat)
    (hgs : ∀ g ∈ gs, ∀ x ∈ g, x.via_ < N) (st : rstate)
    (hst : st.node_restrictions.length ≤ N) :
    (gs.foldl (process_group node_ways) st).node_restrictions.length ≤ N := by
  induction gs generalizing st with
  | nil => exact hst
  | cons g gs ih =>
    rw [List.foldl_cons]
    refine ih (fun g2 h2 => hgs g2 (List.mem_cons_of_mem _ h2)) _ ?_
    cases g with
    | nil => exact hst
    | cons x0 t =>
      rw [process_group_length_cons]
      have := hgs _ (List.mem_cons_self _ _) x0 (List.mem_cons_self x0 t)
      omega

/-- After a batch whose via nodes are within range, the restriction-list
column covers exactly the full internal-node range. -/
theorem add_restriction_length (node_ways : Nat → List Nat) (num_nodes : Nat)
    (rs : List resolved_restriction) (st : rstate)
    (hvias : ∀ r ∈ rs, r.via_ < num_nodes)
    (hst : st.node_restrictions.length ≤ num_nodes) :
    (add_restriction node_ways num_nodes rs st).node_restrictions.length = num_nodes := by
  simp only [add_restriction]
  rw [ensure_size_length]
  have hle : ((equal_ranges_by_via (sort_restrictions rs)).foldl
      (process_group node_ways) st).node_restrictions.length ≤ num_nodes := by
    refine foldl_process_group_length_le node_ways _ num_nodes ?_ st hst
    intro g hgm x hxm
    refine hvias x ?_
    have hx : x ∈ sort_restrictions rs := equal_ranges_mem _ g hgm x hxm
    exact (List.perm_insertionSort restriction_le rs).mem_iff.mp hx
  omega

theorem batch_pairs_eq_nil (node_ways : Nat → List Nat)
    (rs : List resolved_restriction) (v : Nat) (hv : ∀ r ∈ rs, r.via_ ≠ v) :
    batch_pairs node_ways rs v = [] := by
  rw [batch_pairs]
  have hf : (sort_restrictions rs).filter (fun x => x.via_ == v) = [] := by
    rw [List.filter_eq_nil_iff]
    intro a ha
    have ham : a ∈ rs := (List.perm_insertionSort restriction_le rs).mem_iff.mp ha
    simpa using hv a ham
  rw [hf]
  rfl

theorem batch_pairs_singleton (node_ways : Nat → List Nat)
    (r : resolved_restriction) (v : Nat) :
    batch_pairs node_ways [r] v =
      if r.via_ = v then restriction_pairs node_ways r else [] := by
  rw [batch_pairs]
  have hs : sort_restrictions [r] = [r] := rfl
  rw [hs]
  by_cases h : r.via_ = v
  · rw [List.filter_cons_of_pos (by simpa using h), if_pos h]
    simp
  · rw [List.filter_cons_of_neg (by simpa using h), if_neg h]
    rfl

/-- C7: a kNo record appends to its via node exactly the single resolved
(from-slot, to-slot) pair and touches no other node's list. -/
theorem C7_no_record_single_pair (node_ways : Nat → List Nat) (num_nodes : Nat)
    (st : rstate) (r : resolved_restriction) (h : r.type_ = restriction_type.kNo) :
    ((add_restriction node_ways num_nodes [r] st).node_restrictions.getD r.via_ [] =
        st.node_restrictions.getD r.via_ [] ++
          [(get_way_pos node_ways r.via_ r.from_, get_way_pos node_ways r.via_ r.to_)])
    ∧ ∀ v, v ≠ r.via_ →
        (add_restriction node_ways num_nodes [r] st).node_restrictions.getD v [] =
          st.node_restrictions.getD v [] := by
  constructor
  · rw [add_restriction_getD, batch_pairs_singleton, if_pos rfl]
    simp only [restriction_pairs, h]
  · intro v hv
    rw [add_restriction_getD, batch_pairs_singleton, if_neg (fun hh => hv hh.symm),
      List.append_nil]

/-- Witness for C7: via node 0 touched by ways 0, 1, 2; forbidding the
transition from way 1 to way 2 appends exactly the pair (1, 2). -/
theorem C7_no_record_single_pair_witness :
    (⟨restriction_type.kNo, 1, 2, 0⟩ : resolved_restriction).type_ = restriction_type.kNo ∧
      (((add_restriction (fun _ => [0, 1, 2]) 3
            [⟨restriction_type.kNo, 1, 2, 0⟩] ⟨[], []⟩).node_restrictions.getD 0 [] =
          (⟨[], []⟩ : rstate).node_restrictions.getD 0 [] ++
            [(get_way_pos (fun _ => [0, 1, 2]) 0 1, get_way_pos (fun _ => [0, 1, 2]) 0 2)])
        ∧ ∀ v, v ≠ 0 →
            (add_restriction (fun _ => [0, 1, 2]) 3
                [⟨restriction_type.kNo, 1, 2, 0⟩] ⟨[], []⟩).node_restrictions.getD v [] =
              (⟨[], []⟩ : rstate).node_restrictions.getD v []) :=
  ⟨rfl, C7_no_record_single_pair (fun _ => [0, 1, 2]) 3 ⟨[], []⟩
    ⟨restriction_type.kNo, 1, 2, 0⟩ rfl⟩

/-- Membership characterization of the pairs a kOnly record generates: (i, j)
occurs exactly when slot i holds the allowed from way and slot j holds a way
other than the allowed to way (including slot i itself). -/
theorem only_pairs_mem_iff (node_ways : Nat → List Nat) (r : resolved_restriction)
    (h : r.type_ = restriction_type.kOnly) (i j : Nat) :
    ((i, j) ∈ restriction_pairs node_ways r ↔
      ((node_ways r.via_)[i]? = some r.from_ ∧
        ∃ t, (node_ways r.via_)[j]? = some t ∧ t ≠ r.to_)) := by
  simp only [restriction_pairs, h]
  constructor
  · intro hmem
    rw [List.mem_flatMap] at hmem
    obtain ⟨⟨i0, a⟩, hiw, hmem2⟩ := hmem
    rw [List.mem_filterMap] at hmem2
    obtain ⟨⟨j0, b⟩, hjt, hif⟩ := hmem2
    by_cases hP : r.from_ = a ∧ r.to_ ≠ b
    · rw [if_pos hP] at hif
      obtain ⟨hi, hj⟩ := Prod.mk.inj (Option.some.inj hif)
      subst hi
      subst hj
      rw [List.mem_enum_iff_getElem?] at hiw hjt
      exact ⟨hP.1 ▸ hiw, b, hjt, fun hh => hP.2 hh.symm⟩
    · rw [if_neg hP] at hif
      exact Option.noConfusion hif
  · rintro ⟨hfrom, t, hto, hne⟩
    rw [List.mem_flatMap]
    refine ⟨(i, r.from_), List.mem_enum_iff_getElem?.mpr hfrom, ?_⟩
    rw [List.mem_filterMap]
    exact ⟨(j, t), List.mem_enum_iff_getElem?.mpr hto,
      by rw [if_pos ⟨rfl, fun hh => hne hh.symm⟩]⟩

/-- C2: a kOnly record appends to its via node exactly the pairs (i, j) with
slot i holding the allowed from way and slot j holding anything but the
allowed to way; in particular no (from-slot, to-slot) pair of the allowed
transition is ever appended. -/
theorem C2_only_record_pairs (node_ways : Nat → List Nat) (num_nodes : Nat)
    (st : rstate) (r : resolved_restriction) (h : r.type_ = restriction_type.kOnly) :
    ((add_restriction node_ways num_nodes [r] st).node_restrictions.getD r.via_ [] =
        st.node_restrictions.getD r.via_ [] ++ restriction_pairs node_ways r)
    ∧ (∀ v, v ≠ r.via_ →
        (add_restriction node_ways num_nodes [r] st).node_restrictions.getD v [] =
          st.node_restrictions.getD v [])
    ∧ (∀ i j : Nat, ((i, j) ∈ restriction_pairs node_ways r ↔
        ((node_ways r.via_)[i]? = some r.from_ ∧
          ∃ t, (node_ways r.via_)[j]? = some t ∧ t ≠ r.to_)))
    ∧ ∀ i j : Nat, (node_ways r.via_)[i]? = some r.from_ →
        (node_ways r.via_)[j]? = some r.to_ →
        (i, j) ∉ restriction_pairs node_ways r := by
  refine ⟨?_, ?_, only_pairs_mem_iff node_ways r h, ?_⟩
  · rw [add_restriction_getD, batch_pairs_singleton, if_pos rfl]
  · intro v hv
    rw [add_restriction_getD, batch_pairs_singleton, if_neg (fun hh => hv hh.symm),
      List.append_nil]
  · intro i j hfrom hto hmem
    obtain ⟨-, t, h2, h3⟩ := (only_pairs_mem_iff node_ways r h i j).mp hmem
    rw [hto] at h2
    exact h3 (Option.some.inj h2.symm)

/-- Witness for C2: via node 0 touched by ways 0, 1, 2; the only record
allowing the transition way 0 to way 1 appends (0, 0) and (0, 2) but not
(0, 1). -/
theorem C2_only_record_pairs_witness :
    (⟨restriction_type.kOnly, 0, 1, 0⟩ : resolved_restriction).type_ = restriction_type.kOnly ∧
      (((add_restriction (fun _ => [0, 1, 2]) 3
            [⟨restriction_type.kOnly, 0, 1, 0⟩] ⟨[], []⟩).node_restrictions.getD 0 [] =
          (⟨[], []⟩ : rstate).node_restrictions.getD 0 [] ++
            restriction_pairs (fun _ => [0, 1, 2]) ⟨restriction_type.kOnly, 0, 1, 0⟩)
        ∧ (∀ v, v ≠ 0 →
            (add_restriction (fun _ => [0, 1, 2]) 3
                [⟨restriction_type.kOnly, 0, 1, 0⟩] ⟨[], []⟩).node_restrictions.getD v [] =
              (⟨[], []⟩ : rstate).node_restrictions.getD v [])
        ∧ (∀ i j : Nat,
            ((i, j) ∈ restriction_pairs (fun _ => [0, 1, 2]) ⟨restriction_type.kOnly, 0, 1, 0⟩ ↔
              (([0, 1, 2] : List Nat)[i]? = some 0 ∧
                ∃ t, ([0, 1, 2] : List Nat)[j]? = some t ∧ t ≠ 1)))
        ∧ ∀ i j : Nat, ([0, 1, 2] : List Nat)[i]? = some 0 →
            ([0, 1, 2] : List Nat)[j]? = some 1 →
            (i, j) ∉ restriction_pairs (fun _ => [0, 1, 2]) ⟨restriction_type.kOnly, 0, 1, 0⟩) :=
  ⟨rfl, C2_only_record_pairs (fun _ => [0, 1, 2]) 3 ⟨[], []⟩
    ⟨restriction_type.kOnly, 0, 1, 0⟩ rfl⟩

/-- C3: restriction lists are append-only across batches. Starting from the
empty store, the first batch fills each node's list with exactly the batch's
pairs for it; re-running the identical batch leaves every stored pair in
place and appends the same pairs again (duplicates, not deduplicated); after
each run the column is padded to exactly the internal-node range; a node with
no record in the batch ends with an empty list. -/
theorem C3_restriction_append_only (node_ways : Nat → List Nat) (num_nodes : Nat)
    (rs : List resolved_restriction) (hvias : ∀ r ∈ rs, r.via_ < num_nodes) :
    (∀ v, (add_restriction node_ways num_nodes rs ⟨[], []⟩).node_restrictions.getD v [] =
        batch_pairs node_ways rs v)
    ∧ (∀ v, (add_restriction node_ways num_nodes rs
          (add_restriction node_ways num_nodes rs ⟨[], []⟩)).node_restrictions.getD v [] =
        (add_restriction node_ways num_nodes rs ⟨[], []⟩).node_restrictions.getD v [] ++
          batch_pairs node_ways rs v)
    ∧ (add_restriction node_ways num_nodes rs ⟨[], []⟩).node_restrictions.length = num_nodes
    ∧ (add_restriction node_ways num_nodes rs
        (add_restriction node_ways num_nodes rs ⟨[], []⟩)).node_restrictions.length = num_nodes
    ∧ ∀ v, (∀ r ∈ rs, r.via_ ≠ v) →
        (add_restriction node_ways num_nodes rs
            (add_restriction node_ways num_nodes rs ⟨[], []⟩)).node_restrictions.getD v [] = [] := by
  have hlen1 : (add_restriction node_ways num_nodes rs ⟨[], []⟩).node_restrictions.length =
      num_nodes :=
    add_restriction_length node_ways num_nodes rs ⟨[], []⟩ hvias (by simp)
  refine ⟨fun v => ?_, fun v => add_restriction_getD node_ways num_nodes rs _ v, hlen1,
    add_restriction_length node_ways num_nodes rs _ hvias (le_of_eq hlen1), fun v hv => ?_⟩
  · rw [add_restriction_getD]
    rfl
  · rw [add_restriction_getD, add_restriction_getD, batch_pairs_eq_nil _ _ _ hv]
    rfl

/-- Witness for C3 on a concrete two-record batch with via nodes 0 and 2 in a
three-node store. -/
theorem C3_restriction_append_only_witness :
    (∀ r ∈ [(⟨restriction_type.kNo, 1, 2, 0⟩ : resolved_restriction),
        ⟨restriction_type.kNo, 0, 1, 2⟩], r.via_ < 3) ∧
      ((∀ v, (add_restriction (fun _ => [0, 1, 2]) 3
            [⟨restriction_type.kNo, 1, 2, 0⟩, ⟨restriction_type.kNo, 0, 1, 2⟩]
            ⟨[], []⟩).node_restrictions.getD v [] =
          batch_pairs (fun _ => [0, 1, 2])
            [⟨restriction_type.kNo, 1, 2, 0⟩, ⟨restriction_type.kNo, 0, 1, 2⟩] v)
        ∧ (∀ v, (add_restriction (fun _ => [0, 1, 2]) 3
              [⟨restriction_type.kNo, 1, 2, 0⟩, ⟨restriction_type.kNo, 0, 1, 2⟩]
              (add_restriction (fun _ => [0, 1, 2]) 3
                [⟨restriction_type.kNo, 1, 2, 0⟩, ⟨restriction_type.kNo, 0, 1, 2⟩]
                ⟨[], []⟩)).node_restrictions.getD v [] =
            (add_restriction (fun _ => [0, 1, 2]) 3
                [⟨restriction_type.kNo, 1, 2, 0⟩, ⟨restriction_type.kNo, 0, 1, 2⟩]
                ⟨[], []⟩).node_restrictions.getD v [] ++
              batch_pairs (fun _ => [0, 1, 2])
                [⟨restriction_type.kNo, 1, 2, 0⟩, ⟨restriction_type.kNo, 0, 1, 2⟩] v)
        ∧ (add_restriction (fun _ => [0, 1, 2]) 3
            [⟨restriction_type.kNo, 1, 2, 0⟩, ⟨restriction_type.kNo, 0, 1, 2⟩]
            ⟨[], []⟩).node_restrictions.length = 3
        ∧ (add_restriction (fun _ => [0, 1, 2]) 3
            [⟨restriction_type.kNo, 1, 2, 0⟩, ⟨restriction_type.kNo, 0, 1, 2⟩]
            (add_restriction (fun _ => [0, 1, 2]) 3
              [⟨restriction_type.kNo, 1, 2, 0⟩, ⟨restriction_type.kNo, 0, 1, 2⟩]
              ⟨[], []⟩)).node_restrictions.length = 3
        ∧ ∀ v, (∀ r ∈ [(⟨restriction_type.kNo, 1, 2, 0⟩ : resolved_restriction),
              ⟨restriction_type.kNo, 0, 1, 2⟩], r.via_ ≠ v) →
            (add_restriction (fun _ => [0, 1, 2]) 3
                [⟨restriction_type.kNo, 1, 2, 0⟩, ⟨restriction_type.kNo, 0, 1, 2⟩]
                (add_restriction (fun _ => [0, 1, 2]) 3
                  [⟨restriction_type.kNo, 1, 2, 0⟩, ⟨restriction_type.kNo, 0, 1, 2⟩]
                  ⟨[], []⟩)).node_restrictions.getD v [] = []) :=
  ⟨by decide, C3_restriction_append_only (fun _ => [0, 1, 2]) 3
    [⟨restriction_type.kNo, 1, 2, 0⟩, ⟨restriction_type.kNo, 0, 1, 2⟩] (by decide)⟩

/-- The per-way loop records one internal node per multiply-referenced
external node, in order, whatever the rest of the loop state is: no node and
no way is ever dropped or rejected. -/
theorem connect_way_loop_nodes {pt : Type} (im : Nat → Bool) (nio : Nat → Nat)
    (dist : pt → pt → ℚ) (xs : List (Nat × pt)) :
    ∀ (pred : Option pt) (fromN : Option Nat) (d0 : ℚ) (i : Nat) (acc : way_build_result),
      (connect_way_loop im nio dist xs pred fromN d0 i acc).nodes =
        acc.nodes ++ (xs.filter (fun p => im p.1)).map (fun p => nio p.1) := by
  induction xs with
  | nil =>
    intro pred fromN d0 i acc
    simp [connect_way_loop]
  | cons x rest ih =>
    intro pred fromN d0 i acc
    by_cases him : im x.1 = true
    · rw [connect_way_loop, if_pos him, ih, List.filter_cons_of_pos (by simpa using him)]
      simp [List.append_assoc]
    · rw [connect_way_loop, if_neg him, ih, List.filter_cons_of_neg (by simpa using him)]

/-- The in-way positions the loop stores are the successive values of the
16-bit counter: position number t is stored as (i + t) mod 2 to the 16. -/
theorem connect_way_loop_idx {pt : Type} (im : Nat → Bool) (nio : Nat → Nat)
    (dist : pt → pt → ℚ) (xs : List (Nat × pt)) :
    ∀ (pred : Option pt) (fromN : Option Nat) (d0 : ℚ) (i : Nat) (acc : way_build_result),
      i < U16 →
      (connect_way_loop im nio dist xs pred fromN d0 i acc).in_way_idx =
        acc.in_way_idx ++
          (List.range (xs.filter (fun p => im p.1)).length).map (fun t => (i + t) % U16) := by
  induction xs with
  | nil =>
    intro pred fromN d0 i acc hi
    simp [connect_way_loop]
  | cons x rest ih =>
    intro pred fromN d0 i acc hi
    by_cases him : im x.1 = true
    · rw [connect_way_loop, if_pos him,
        ih _ _ _ _ _ (Nat.mod_lt _ (by decide)),
        List.filter_cons_of_pos (by simpa using him), List.length_cons,
        List.range_succ_eq_map, List.map_cons, List.map_map, List.append_assoc,
        List.singleton_append]
      congr 2
      · rw [Nat.add_zero, Nat.mod_eq_of_lt hi]
      · refine List.map_congr_left (fun t _ => ?_)
        rw [Function.comp_apply, Nat.mod_add_mod]
        congr 1
        omega
    · rw [connect_way_loop, if_neg him, ih _ _ _ _ _ hi,
        List.filter_cons_of_neg (by simpa using him)]

/-- The non-fatal 16-bit diagnostic fires exactly when the position counter
reaches the top of the 16-bit range, that is when at least U16 - i more
internal nodes are recorded. -/
theorem connect_way_loop_diag {pt : Type} (im : Nat → Bool) (nio : Nat → Nat)
    (dist : pt → pt → ℚ) (xs : List (Nat × pt)) :
    ∀ (pred : Option pt) (fromN : Option Nat) (d0 : ℚ) (i : Nat) (acc : way_build_result),
      i < U16 →
      (connect_way_loop im nio dist xs pred fromN d0 i acc).overflow_diagnostic =
        (acc.overflow_diagnostic ||
          decide (U16 - i ≤ (xs.filter (fun p => im p.1)).length)) := by
  induction xs with
  | nil =>
    intro pred fromN d0 i acc hi
    rw [connect_way_loop, List.filter_nil, List.length_nil,
      decide_eq_false (by omega), Bool.or_false]
  | cons x rest ih =>
    intro pred fromN d0 i acc hi
    by_cases him : im x.1 = true
    · rw [connect_way_loop, if_pos him,
        ih _ _ _ _ _ (Nat.mod_lt _ (by decide)),
        List.filter_cons_of_pos (by simpa using him), List.length_cons]
      by_cases htop : i = U16 - 1
      · have h1 : (i == U16 - 1) = true := by simp [htop]
        rw [h1, Bool.or_true, Bool.true_or,
          decide_eq_true (show U16 - i ≤ (rest.filter (fun p => im p.1)).length + 1 by omega),
          Bool.or_true]
      · have h1 : (i == U16 - 1) = false := by simp [htop]
        have h2 : (i + 1) % U16 = i + 1 := Nat.mod_eq_of_lt (by omega)
        rw [h1, Bool.or_false, h2]
        congr 1
        rw [decide_eq_decide]
        omega
    · rw [connect_way_loop, if_neg him, ih _ _ _ _ _ hi,
        List.filter_cons_of_neg (by simpa using him)]

theorem step_dist_nonneg {pt : Type} (dist : pt → pt → ℚ) (hd : ∀ a b, 0 ≤ dist a b)
    (pred : Option pt) (pos : pt) (d : ℚ) (h : 0 ≤ d) :
    0 ≤ step_dist dist pred pos d := by
  cases pred with
  | none => exact h
  | some pp => exact add_nonneg h (hd pos pp)

/-- Counting invariant of the per-way loop: a distance entry is pushed for
every recorded internal node except the first one. -/
theorem connect_way_loop_dist_len {pt : Type} (im : Nat → Bool) (nio : Nat → Nat)
    (dist : pt → pt → ℚ) (xs : List (Nat × pt)) :
    ∀ (pred : Option pt) (fromN : Option Nat) (d0 : ℚ) (i : Nat) (acc : way_build_result),
      ((fromN = none ∧ acc.nodes = [] ∧ acc.dists = []) ∨
        (fromN ≠ none ∧ acc.dists.length + 1 = acc.nodes.length)) →
      ((connect_way_loop im nio dist xs pred fromN d0 i acc).dists.length + 1 =
          (connect_way_loop im nio dist xs pred fromN d0 i acc).nodes.length ∨
        ((connect_way_loop im nio dist xs pred fromN d0 i acc).nodes = [] ∧
          (connect_way_loop im nio dist xs pred fromN d0 i acc).dists = [])) := by
  induction xs with
  | nil =>
    intro pred fromN d0 i acc hinv
    rw [connect_way_loop]
    rcases hinv with ⟨-, h1, h2⟩ | ⟨-, h⟩
    · exact Or.inr ⟨h1, h2⟩
    · exact Or.inl h
  | cons x rest ih =>
    intro pred fromN d0 i acc hinv
    by_cases him : im x.1 = true
    · rw [connect_way_loop, if_pos him]
      refine ih _ _ _ _ _ (Or.inr ⟨by simp, ?_⟩)
      rcases hinv with ⟨hf, h1, h2⟩ | ⟨hf, h⟩
      · subst hf
        simp [push_dist, h1, h2]
      · rcases fromN with _ | f
        · exact absurd rfl hf
        · simp only [push_dist, List.length_append, List.length_cons, List.length_nil]
          omega
    · rw [connect_way_loop, if_neg him]
      exact ih _ _ _ _ _ hinv

/-- Every stored distance entry is the 16-bit reduction of the rounding of a
non-negative accumulated distance. -/
theorem connect_way_loop_dist_entries {pt : Type} (im : Nat → Bool) (nio : Nat → Nat)
    (dist : pt → pt → ℚ) (hd : ∀ a b, 0 ≤ dist a b) (xs : List (Nat × pt)) :
    ∀ (pred : Option pt) (fromN : Option Nat) (d0 : ℚ) (i : Nat) (acc : way_build_result),
      0 ≤ d0 →
      (∀ e ∈ acc.dists, ∃ q : ℚ, 0 ≤ q ∧ e = store_dist q) →
      ∀ e ∈ (connect_way_loop im nio dist xs pred fromN d0 i acc).dists,
        ∃ q : ℚ, 0 ≤ q ∧ e = store_dist q := by
  induction xs with
  | nil =>
    intro pred fromN d0 i acc hd0 hacc
    rw [connect_way_loop]
    exact hacc
  | cons x rest ih =>
    intro pred fromN d0 i acc hd0 hacc
    by_cases him : im x.1 = true
    · rw [connect_way_loop, if_pos him]
      refine ih _ _ _ _ _ le_rfl ?_
      intro e he
      rcases List.mem_append.mp he with he1 | he2
      · exact hacc e he1
      · rcases fromN with _ | f
        · rw [push_dist] at he2
          cases he2
        · rw [push_dist] at he2
          rcases List.mem_singleton.mp he2 with rfl
          exact ⟨step_dist dist pred x.2 d0,
            step_dist_nonneg dist hd _ _ _ hd0, rfl⟩
    · rw [connect_way_loop, if_neg him]
      exact ih _ _ _ _ _ (step_dist_nonneg dist hd _ _ _ hd0) hacc

/-- C4: after connect_ways processes a way, way_node_dist has exactly
len(way_nodes) - 1 entries (none when the way has no internal node), and
every entry is the non-negative rounding of an accumulated distance reduced
into the 16-bit field. -/
theorem C4_way_node_dist (pt : Type) (is_multi : Nat → Bool) (node_idx_of : Nat → Nat)
    (dist : pt → pt → ℚ) (pt0 : pt) (osm_nodes : List (Nat × pt))
    (hd : ∀ a b : pt, 0 ≤ dist a b) :
    ((connect_way is_multi node_idx_of dist pt0 osm_nodes).dists.length =
        (connect_way is_multi node_idx_of dist pt0 osm_nodes).nodes.length - 1)
    ∧ ((connect_way is_multi node_idx_of dist pt0 osm_nodes).nodes = [] →
        (connect_way is_multi node_idx_of dist pt0 osm_nodes).dists = [])
    ∧ ∀ e ∈ (connect_way is_multi node_idx_of dist pt0 osm_nodes).dists,
        e < U16 ∧ ∃ q : ℚ, 0 ≤ q ∧ e = store_dist q := by
  have hres : connect_way is_multi node_idx_of dist pt0 osm_nodes =
      connect_way_loop is_multi node_idx_of dist osm_nodes (some pt0) none 0 0
        ⟨[], [], [], false⟩ := rfl
  have hlen := connect_way_loop_dist_len is_multi node_idx_of dist osm_nodes
    (some pt0) none 0 0 ⟨[], [], [], false⟩ (Or.inl ⟨rfl, rfl, rfl⟩)
  have hent := connect_way_loop_dist_entries is_multi node_idx_of dist hd osm_nodes
    (some pt0) none 0 0 ⟨[], [], [], false⟩ le_rfl (by intro e he; cases he)
  refine ⟨?_, ?_, ?_⟩
  · rw [hres]
    rcases hlen with h | ⟨h1, h2⟩
    · omega
    · rw [h1, h2]
      rfl
  · rw [hres]
    intro hn
    rcases hlen with h | ⟨-, h2⟩
    · rw [hn] at h
      exact absurd h (by simp)
    · exact h2
  · intro e he
    rw [hres] at he
    obtain ⟨q, hq, he2⟩ := hent e he
    refine ⟨?_, q, hq, he2⟩
    rw [he2, store_dist]
    exact Nat.mod_lt _ (by decide)

/-- Witness for C4 with the constant-zero distance function on a two-node
way. -/
theorem C4_way_node_dist_witness :
    (∀ a b : Unit, (0 : ℚ) ≤ (fun _ _ => (0 : ℚ)) a b) ∧
      (((connect_way (fun _ => true) (fun n => n) (fun _ _ : Unit => (0 : ℚ)) ()
            [(0, ()), (1, ())]).dists.length =
          (connect_way (fun _ => true) (fun n => n) (fun _ _ : Unit => (0 : ℚ)) ()
            [(0, ()), (1, ())]).nodes.length - 1)
        ∧ ((connect_way (fun _ => true) (fun n => n) (fun _ _ : Unit => (0 : ℚ)) ()
              [(0, ()), (1, ())]).nodes = [] →
            (connect_way (fun _ => true) (fun n => n) (fun _ _ : Unit => (0 : ℚ)) ()
              [(0, ()), (1, ())]).dists = [])
        ∧ ∀ e ∈ (connect_way (fun _ => true) (fun n => n) (fun _ _ : Unit => (0 : ℚ)) ()
              [(0, ()), (1, ())]).dists,
            e < U16 ∧ ∃ q : ℚ, 0 ≤ q ∧ e = store_dist q) :=
  ⟨fun _ _ => le_refl 0,
   C4_way_node_dist Unit (fun _ => true) (fun n => n) (fun _ _ => (0 : ℚ)) ()
     [(0, ()), (1, ())] (fun _ _ => le_refl 0)⟩

/-- C9: the in-way positions a way's nodes are stored with are the node
ranks reduced modulo 2 to the 16 (silent wraparound); the non-fatal
diagnostic is emitted exactly when the position counter would pass the top of
the 16-bit range (at least 2 to the 16 internal nodes); and every
multiply-referenced node of the way is still processed and recorded --- no
abort, no rejection, for position or distance overflow alike (the loop is a
total function into the full node list). -/
theorem C9_position_index_wraparound (pt : Type) (is_multi : Nat → Bool)
    (node_idx_of : Nat → Nat) (dist : pt → pt → ℚ) (pt0 : pt)
    (osm_nodes : List (Nat × pt)) :
    ((connect_way is_multi node_idx_of dist pt0 osm_nodes).in_way_idx =
        (List.range
          (connect_way is_multi node_idx_of dist pt0 osm_nodes).nodes.length).map
          (fun t => t % U16))
    ∧ ((connect_way is_multi node_idx_of dist pt0 osm_nodes).overflow_diagnostic = true ↔
        U16 ≤ (connect_way is_multi node_idx_of dist pt0 osm_nodes).nodes.length)
    ∧ (connect_way is_multi node_idx_of dist pt0 osm_nodes).nodes =
        (osm_nodes.filter (fun p => is_multi p.1)).map (fun p => node_idx_of p.1) := by
  have hres : connect_way is_multi node_idx_of dist pt0 osm_nodes =
      connect_way_loop is_multi node_idx_of dist osm_nodes (some pt0) none 0 0
        ⟨[], [], [], false⟩ := rfl
  have hn := connect_way_loop_nodes is_multi node_idx_of dist osm_nodes
    (some pt0) none 0 0 ⟨[], [], [], false⟩
  have hidx := connect_way_loop_idx is_multi node_idx_of dist osm_nodes
    (some pt0) none 0 0 ⟨[], [], [], false⟩ (by decide)
  have hdiag := connect_way_loop_diag is_multi node_idx_of dist osm_nodes
    (some pt0) none 0 0 ⟨[], [], [], false⟩ (by decide)
  have hnodes : (connect_way is_multi node_idx_of dist pt0 osm_nodes).nodes =
      (osm_nodes.filter (fun p => is_multi p.1)).map (fun p => node_idx_of p.1) := by
    rw [hres, hn]
    exact List.nil_append _
  have hlen : (connect_way is_multi node_idx_of dist pt0 osm_nodes).nodes.length =
      (osm_nodes.filter (fun p => is_multi p.1)).length := by
    rw [hnodes, List.length_map]
  refine ⟨?_, ?_, hnodes⟩
  · rw [hlen, hres, hidx, List.nil_append]
    refine List.map_congr_left (fun t _ => ?_)
    rw [Nat.zero_add]
  · rw [hlen, hres, hdiag]
    simp only [Bool.false_or, decide_eq_true_eq, Nat.sub_zero]

theorem getD_eq_none_facts (comp : Comp) (w : Nat) (h : comp.getD w (some 0) = none) :
    w < comp.length ∧ comp[w]? = some none := by
  have hw : w < comp.length := by
    by_contra hw
    rw [List.getD_eq_getElem?_getD, List.getElem?_eq_none (by omega)] at h
    exact Option.noConfusion h
  refine ⟨hw, ?_⟩
  rw [List.getD_eq_getElem?_getD, List.getElem?_eq_getElem hw] at h
  rw [List.getElem?_eq_getElem hw]
  simpa using h

theorem getD_eq_some_facts (comp : Comp) (w : Nat) (a : Nat)
    (h : comp.getD w (some 0) = some a) : comp[w]? ≠ some none := by
  intro hc
  rw [List.getD_eq_getElem?_getD, hc] at h
  exact Option.noConfusion h

theorem adjacent_symm (wn : WayNodes) : Symmetric (Adjacent wn) := by
  rintro a b ⟨n, h1, h2⟩
  exact ⟨n, h2, h1⟩

theorem adjacent_lt (wn : WayNodes) (a b : Nat) (h : Adjacent wn a b) :
    a < wn.length ∧ b < wn.length := by
  obtain ⟨n, h1, h2⟩ := h
  constructor
  · by_contra ha
    rw [wayNodesOf, List.getD_eq_getElem?_getD, List.getElem?_eq_none (by omega)] at h1
    cases h1
  · by_contra hb
    rw [wayNodesOf, List.getD_eq_getElem?_getD, List.getElem?_eq_none (by omega)] at h2
    cases h2

/-- The double loop of the flood fill and of the propagator visits way w from
way x exactly when the two ways are adjacent (share an internal node). -/
theorem mem_neighborsOf_iff (wn : WayNodes) (x w : Nat) :
    w ∈ neighborsOf wn x ↔ Adjacent wn x w := by
  rw [neighborsOf, List.mem_flatMap]
  constructor
  · rintro ⟨n, hn, hw⟩
    rw [nodeWaysOf, List.mem_filter, List.mem_range] at hw
    exact ⟨n, hn, of_decide_eq_true hw.2⟩
  · rintro ⟨n, hn1, hn2⟩
    refine ⟨n, hn1, ?_⟩
    rw [nodeWaysOf, List.mem_filter, List.mem_range]
    refine ⟨(adjacent_lt wn x w ⟨n, hn1, hn2⟩).2, decide_eq_true hn2⟩

theorem assignAll_length (c : Nat) (ws : List Nat) (comp : Comp) :
    ((assignAll c ws comp).1).length = comp.length := by
  induction ws generalizing comp with
  | nil => rfl
  | cons w ws ih =>
    cases hc : comp.getD w (some 0) with
    | none =>
      simp only [assignAll, hc]
      rw [ih, List.length_set]
    | some a =>
      simp only [assignAll, hc]
      exact ih comp

/-- Pointwise effect of the inner flood-fill loop: invalid entries listed in
ws become c, every other entry is untouched. -/
theorem assignAll_getElem (c : Nat) (ws : List Nat) (comp : Comp) (v : Nat) :
    ((assignAll c ws comp).1)[v]? =
      if comp[v]? = some none ∧ v ∈ ws then some (some c) else comp[v]? := by
  induction ws generalizing comp with
  | nil => simp [assignAll]
  | cons w ws ih =>
    cases hc : comp.getD w (some 0) with
    | none =>
      obtain ⟨hw, hgw⟩ := getD_eq_none_facts comp w hc
      have hset : ∀ u, (comp.set w (some c))[u]? =
          if w = u then some (some c) else comp[u]? := by
        intro u
        rw [List.getElem?_set]
        by_cases h : w = u
        · rw [if_pos h, if_pos h, if_pos hw]
        · rw [if_neg h, if_neg h]
      simp only [assignAll, hc]
      rw [ih]
      by_cases hv : w = v
      · subst hv
        rw [hset w, if_pos rfl]
        have hnc : ¬((some (some c) : Option (Option Nat)) = some none ∧ w ∈ ws) := by
          rintro ⟨h1, -⟩
          cases Option.some.inj h1
        rw [if_neg hnc, if_pos ⟨hgw, List.mem_cons_self w ws⟩]
      · rw [hset v, if_neg hv]
        by_cases hcond : comp[v]? = some none ∧ v ∈ ws
        · rw [if_pos hcond, if_pos ⟨hcond.1, List.mem_cons_of_mem _ hcond.2⟩]
        · have hnc : ¬(comp[v]? = some none ∧ v ∈ w :: ws) := by
            rintro ⟨hv1, hv2⟩
            rcases List.mem_cons.mp hv2 with rfl | hv3
            · exact hv rfl
            · exact hcond ⟨hv1, hv3⟩
          rw [if_neg hcond, if_neg hnc]
    | some a =>
      have hne := getD_eq_some_facts comp w a hc
      simp only [assignAll, hc]
      rw [ih]
      by_cases hcond : comp[v]? = some none ∧ v ∈ ws
      · rw [if_pos hcond, if_pos ⟨hcond.1, List.mem_cons_of_mem _ hcond.2⟩]
      · have hnc : ¬(comp[v]? = some none ∧ v ∈ w :: ws) := by
          rintro ⟨hv1, hv2⟩
          rcases List.mem_cons.mp hv2 with rfl | hv3
          · exact hne hv1
          · exact hcond ⟨hv1, hv3⟩
        rw [if_neg hcond, if_neg hnc]

/-- The ways the inner loop inserts into the work set are exactly the listed
ways that were invalid before. -/
theorem assignAll_mem_snd (c : Nat) (ws : List Nat) (comp : Comp) (v : Nat) :
    v ∈ (assignAll c ws comp).2 ↔ v ∈ ws ∧ comp[v]? = some none := by
  induction ws generalizing comp with
  | nil => simp [assignAll]
  | cons w ws ih =>
    cases hc : comp.getD w (some 0) with
    | none =>
      obtain ⟨hw, hgw⟩ := getD_eq_none_facts comp w hc
      have hset : ∀ u, (comp.set w (some c))[u]? =
          if w = u then some (some c) else comp[u]? := by
        intro u
        rw [List.getElem?_set]
        by_cases h : w = u
        · rw [if_pos h, if_pos h, if_pos hw]
        · rw [if_neg h, if_neg h]
      simp only [assignAll, hc, List.mem_cons]
      rw [ih]
      constructor
      · rintro (rfl | ⟨hv1, hv2⟩)
        · exact ⟨Or.inl rfl, hgw⟩
        · rw [hset v] at hv2
          by_cases hvw : w = v
          · rw [if_pos hvw] at hv2
            exact Option.noConfusion (Option.some.inj hv2)
          · rw [if_neg hvw] at hv2
            exact ⟨Or.inr hv1, hv2⟩
      · rintro ⟨rfl | hv1, hv2⟩
        · exact Or.inl rfl
        · by_cases hvw : w = v
          · exact Or.inl hvw.symm
          · refine Or.inr ⟨hv1, ?_⟩
            rw [hset v, if_neg hvw]
            exact hv2
    | some a =>
      have hne := getD_eq_some_facts comp w a hc
      simp only [assignAll, hc, List.mem_cons]
      rw [ih]
      constructor
      · rintro ⟨hv1, hv2⟩
        exact ⟨Or.inr hv1, hv2⟩
      · rintro ⟨rfl | hv1, hv2⟩
        · exact absurd hv2 hne
        · exact ⟨hv1, hv2⟩

theorem floodFill_nil (wn : WayNodes) (c : Nat) (comp : Comp) :
    floodFill wn c comp [] = comp := by
  rw [floodFill.eq_def]

theorem floodFill_cons (wn : WayNodes) (c : Nat) (comp : Comp) (next : Nat) (q : List Nat) :
    floodFill wn c comp (next :: q) =
      floodFill wn c (assignAll c (neighborsOf wn next) comp).1
        (q ++ (assignAll c (neighborsOf wn next) comp).2) := by
  rw [floodFill.eq_def]

theorem floodFill_length (wn : WayNodes) (c : Nat) :
    ∀ (comp : Comp) (q : List Nat), (floodFill wn c comp q).length = comp.length := by
  intro comp q
  induction comp, q using floodFill.induct wn c with
  | case1 comp => rw [floodFill_nil]
  | case2 comp next q r ih =>
    rw [floodFill_cons, ih, assignAll_length]

/-- The flood fill never unassigns or relabels: an assigned entry stays. -/
theorem floodFill_monotone (wn : WayNodes) (c : Nat) :
    ∀ (comp : Comp) (q : List Nat) (v a : Nat), comp[v]? = some (some a) →
      (floodFill wn c comp q)[v]? = some (some a) := by
  intro comp q
  induction comp, q using floodFill.induct wn c with
  | case1 comp =>
    intro v a h
    rwa [floodFill_nil]
  | case2 comp next q r ih =>
    intro v a h
    rw [floodFill_cons]
    refine ih v a ?_
    rw [assignAll_getElem, if_neg (by rw [h]; rintro ⟨h1, -⟩; cases Option.some.inj h1)]
    exact h

/-- Everything the flood fill newly assigns carries the component id c. -/
theorem floodFill_new_is_c (wn : WayNodes) (c : Nat) :
    ∀ (comp : Comp) (q : List Nat) (v a : Nat),
      (floodFill wn c comp q)[v]? = some (some a) →
      comp[v]? = some (some a) ∨ a = c := by
  intro comp q
  induction comp, q using floodFill.induct wn c with
  | case1 comp =>
    intro v a h
    rw [floodFill_nil] at h
    exact Or.inl h
  | case2 comp next q r ih =>
    intro v a h
    rw [floodFill_cons] at h
    rcases ih v a h with h1 | h1
    · rw [assignAll_getElem] at h1
      by_cases hcond : comp[v]? = some none ∧ v ∈ neighborsOf wn next
      · rw [if_pos hcond] at h1
        exact Or.inr (Option.some.inj (Option.some.inj h1)).symm
      · rw [if_neg hcond] at h1
        exact Or.inl h1
    · exact Or.inr h1

/-- Soundness of one flood fill: every way that ends up labeled c is
connected to the seed s, provided that held for the c-labeled ways and the
work set at entry. -/
theorem floodFill_sound (wn : WayNodes) (c : Nat) (s : Nat) :
    ∀ (comp : Comp) (q : List Nat),
      (∀ w ∈ q, comp[w]? = some (some c)) →
      (∀ w, comp[w]? = some (some c) → ConnectedWays wn s w) →
      ∀ w, (floodFill wn c comp q)[w]? = some (some c) → ConnectedWays wn s w := by
  intro comp q
  induction comp, q using floodFill.induct wn c with
  | case1 comp =>
    intro hq hc w hw
    rw [floodFill_nil] at hw
    exact hc w hw
  | case2 comp next q r ih =>
    intro hq hc w hw
    rw [floodFill_cons] at hw
    refine ih ?_ ?_ w hw
    · intro u hu
      rcases List.mem_append.mp hu with hu1 | hu2
      · have h3 := hq u (List.mem_cons_of_mem _ hu1)
        rw [assignAll_getElem, if_neg (by rw [h3]; rintro ⟨hx, -⟩; cases Option.some.inj hx)]
        exact h3
      · obtain ⟨hm1, hm2⟩ := (assignAll_mem_snd c _ comp u).mp hu2
        rw [assignAll_getElem, if_pos ⟨hm2, hm1⟩]
    · intro u hu
      rw [assignAll_getElem] at hu
      by_cases hcond : comp[u]? = some none ∧ u ∈ neighborsOf wn next
      · have hnext : ConnectedWays wn s next := hc next (hq next (List.mem_cons_self next q))
        exact Relation.ReflTransGen.tail hnext ((mem_neighborsOf_iff wn next u).mp hcond.2)
      · rw [if_neg hcond] at hu
        exact hc u hu

/-- Closure of one flood fill: at termination, no c-labeled way has an
unassigned adjacent way, provided every c-labeled way outside the work set
already satisfied that at entry. -/
theorem floodFill_closed (wn : WayNodes) (c : Nat) :
    ∀ (comp : Comp) (q : List Nat),
      (∀ w ∈ q, comp[w]? = some (some c)) →
      (∀ w, comp[w]? = some (some c) → w ∉ q →
        ∀ u ∈ neighborsOf wn w, comp[u]? ≠ some none) →
      ∀ w, (floodFill wn c comp q)[w]? = some (some c) →
        ∀ u ∈ neighborsOf wn w, (floodFill wn c comp q)[u]? ≠ some none := by
  intro comp q
  induction comp, q using floodFill.induct wn c with
  | case1 comp =>
    intro hq hcl w hw u hu
    rw [floodFill_nil] at hw ⊢
    exact hcl w hw (by simp) u hu
  | case2 comp next q r ih =>
    intro hq hcl w hw u hu
    rw [floodFill_cons] at hw ⊢
    refine ih ?_ ?_ w hw u hu
    · intro u2 hu2
      rcases List.mem_append.mp hu2 with hx | hx
      · have h3 := hq u2 (List.mem_cons_of_mem _ hx)
        rw [assignAll_getElem, if_neg (by rw [h3]; rintro ⟨hy, -⟩; cases Option.some.inj hy)]
        exact h3
      · obtain ⟨hm1, hm2⟩ := (assignAll_mem_snd c _ comp u2).mp hx
        rw [assignAll_getElem, if_pos ⟨hm2, hm1⟩]
    · intro w2 hw2 hw2q u2 hu2
      rw [assignAll_getElem] at hw2
      by_cases hcw : comp[w2]? = some none ∧ w2 ∈ neighborsOf wn next
      · exact absurd (List.mem_append.mpr (Or.inr ((assignAll_mem_snd c _ comp w2).mpr
          ⟨hcw.2, hcw.1⟩))) hw2q
      · rw [if_neg hcw] at hw2
        by_cases hwn : w2 = next
        · subst hwn
          rw [assignAll_getElem]
          by_cases hcu : comp[u2]? = some none ∧ u2 ∈ neighborsOf wn w2
          · rw [if_pos hcu]
            simp
          · rw [if_neg hcu]
            intro hc2
            exact hcu ⟨hc2, hu2⟩
        · have hnotin : w2 ∉ next :: q := by
            intro hmem
            rcases List.mem_cons.mp hmem with rfl | hmem2
            · exact hwn rfl
            · exact hw2q (List.mem_append.mpr (Or.inl hmem2))
          have h4 := hcl w2 hw2 hnotin u2 hu2
          rw [assignAll_getElem]
          by_cases hcu : comp[u2]? = some none ∧ u2 ∈ neighborsOf wn next
          · rw [if_pos hcu]
            simp
          · rw [if_neg hcu]
            exact h4

theorem comp_entry_some (c2 : Comp) (v : Nat) (hv : v < c2.length)
    (hne : c2[v]? ≠ some none) : ∃ a, c2[v]? = some (some a) := by
  rw [List.getElem?_eq_getElem hv] at hne ⊢
  cases hob : c2[v] with
  | none =>
    rw [hob] at hne
    exact absurd rfl hne
  | some a => exact ⟨a, rfl⟩

/-- One main-loop iteration of build_components preserves the component
invariants: the column length, the freshness bound on labels, closedness of
the labeling under adjacency with equal labels, same-label-implies-connected;
it never unassigns a way; and it leaves the processed way assigned. -/
theorem buildStep_inv (wn : WayNodes) (st : Comp × Nat) (i : Nat)
    (hlen : st.1.length = wn.length)
    (hlt : ∀ (v a : Nat), st.1[v]? = some (some a) → a < st.2)
    (hadj : ∀ (v u a : Nat), st.1[v]? = some (some a) → Adjacent wn v u →
      st.1[u]? = some (some a))
    (hconn : ∀ (v u a : Nat), st.1[v]? = some (some a) → st.1[u]? = some (some a) →
      ConnectedWays wn v u) :
    ((buildStep wn st i).1.length = wn.length)
    ∧ (∀ (v a : Nat), (buildStep wn st i).1[v]? = some (some a) → a < (buildStep wn st i).2)
    ∧ (∀ (v u a : Nat), (buildStep wn st i).1[v]? = some (some a) → Adjacent wn v u →
        (buildStep wn st i).1[u]? = some (some a))
    ∧ (∀ (v u a : Nat), (buildStep wn st i).1[v]? = some (some a) →
        (buildStep wn st i).1[u]? = some (some a) → ConnectedWays wn v u)
    ∧ (∀ (v a : Nat), st.1[v]? = some (some a) → (buildStep wn st i).1[v]? = some (some a))
    ∧ (i < wn.length → (buildStep wn st i).1[i]? ≠ some none) := by
  cases hgi : st.1.getD i (some 0) with
  | some b =>
    have hstep : buildStep wn st i = st := by
      simp only [buildStep, hgi]
    rw [hstep]
    exact ⟨hlen, hlt, hadj, hconn, fun v a h => h,
      fun _ => getD_eq_some_facts st.1 i b hgi⟩
  | none =>
    obtain ⟨hiw, hgw⟩ := getD_eq_none_facts st.1 i hgi
    have hstep : buildStep wn st i =
        (floodFill wn st.2 (st.1.set i (some st.2)) [i], st.2 + 1) := by
      simp only [buildStep, hgi]
    rw [hstep]
    dsimp only
    have hset : ∀ u : Nat, (st.1.set i (some st.2))[u]? =
        if i = u then some (some st.2) else st.1[u]? := by
      intro u
      rw [List.getElem?_set]
      by_cases h : i = u
      · rw [if_pos h, if_pos h, if_pos hiw]
      · rw [if_neg h, if_neg h]
    have hS0 : ∀ v : Nat, (st.1.set i (some st.2))[v]? = some (some st.2) ↔ v = i := by
      intro v
      rw [hset v]
      by_cases h : i = v
      · rw [if_pos h]
        exact ⟨fun _ => h.symm, fun _ => rfl⟩
      · rw [if_neg h]
        constructor
        · intro hv
          exact absurd (hlt v st.2 hv) (lt_irrefl st.2)
        · intro hv
          exact absurd hv.symm h
    have hF1 : ∀ (v a : Nat), (st.1.set i (some st.2))[v]? = some (some a) →
        (floodFill wn st.2 (st.1.set i (some st.2)) [i])[v]? = some (some a) :=
      fun v a h => floodFill_monotone wn st.2 _ [i] v a h
    have hmono : ∀ (v a : Nat), st.1[v]? = some (some a) →
        (floodFill wn st.2 (st.1.set i (some st.2)) [i])[v]? = some (some a) := by
      intro v a h
      refine hF1 v a ?_
      rw [hset v]
      by_cases hvi : i = v
      · subst hvi
        rw [h] at hgw
        cases Option.some.inj hgw
      · rw [if_neg hvi]
        exact h
    have hF2 : ∀ (v a : Nat), (floodFill wn st.2 (st.1.set i (some st.2)) [i])[v]? = some (some a) →
        st.1[v]? = some (some a) ∨ a = st.2 := by
      intro v a h
      rcases floodFill_new_is_c wn st.2 _ [i] v a h with h1 | h1
      · rw [hset v] at h1
        by_cases hvi : i = v
        · rw [if_pos hvi] at h1
          exact Or.inr (Option.some.inj (Option.some.inj h1)).symm
        · rw [if_neg hvi] at h1
          exact Or.inl h1
      · exact Or.inr h1
    have hold : ∀ (v a : Nat), a ≠ st.2 →
        ((floodFill wn st.2 (st.1.set i (some st.2)) [i])[v]? = some (some a) ↔
          st.1[v]? = some (some a)) := by
      intro v a hne
      constructor
      · intro h
        rcases hF2 v a h with h1 | h1
        · exact h1
        · exact absurd h1 hne
      · exact hmono v a
    have hF3 : ∀ v : Nat, (floodFill wn st.2 (st.1.set i (some st.2)) [i])[v]? =
        some (some st.2) → ConnectedWays wn i v := by
      refine floodFill_sound wn st.2 i _ [i] ?_ ?_
      · intro w hw
        rcases List.mem_singleton.mp hw with rfl
        exact (hS0 w).mpr rfl
      · intro w hw
        rcases (hS0 w).mp hw with rfl
        exact Relation.ReflTransGen.refl
    have hF4 : ∀ v : Nat, (floodFill wn st.2 (st.1.set i (some st.2)) [i])[v]? =
        some (some st.2) → ∀ u ∈ neighborsOf wn v,
          (floodFill wn st.2 (st.1.set i (some st.2)) [i])[u]? ≠ some none := by
      refine floodFill_closed wn st.2 _ [i] ?_ ?_
      · intro w hw
        rcases List.mem_singleton.mp hw with rfl
        exact (hS0 w).mpr rfl
      · intro w hw hwq
        rcases (hS0 w).mp hw with rfl
        exact absurd (List.mem_singleton.mpr rfl) hwq
    have hlen1 : (floodFill wn st.2 (st.1.set i (some st.2)) [i]).length = wn.length := by
      rw [floodFill_length, List.length_set, hlen]
    refine ⟨hlen1, ?_, ?_, ?_, hmono, fun _ => ?_⟩
    · intro v a h
      rcases hF2 v a h with h1 | h1
      · exact Nat.lt_succ_of_lt (hlt v a h1)
      · rw [h1]
        exact Nat.lt_succ_self st.2
    · intro v u a hv hadj2
      by_cases ha : a = st.2
      · subst ha
        have hu_lt : u < wn.length := (adjacent_lt wn v u hadj2).2
        have hu_ne : (floodFill wn st.2 (st.1.set i (some st.2)) [i])[u]? ≠ some none :=
          hF4 v hv u ((mem_neighborsOf_iff wn v u).mpr hadj2)
        obtain ⟨b, hob⟩ := comp_entry_some _ u (by rw [hlen1]; exact hu_lt) hu_ne
        by_cases hb : b = st.2
        · rw [hb] at hob
          exact hob
        · exfalso
          have hbc : st.1[u]? = some (some b) := (hold u b hb).mp hob
          have hvb : st.1[v]? = some (some b) := hadj u v b hbc (adjacent_symm wn hadj2)
          have hx : (floodFill wn st.2 (st.1.set i (some st.2)) [i])[v]? = some (some b) :=
            hmono v b hvb
          rw [hv] at hx
          exact hb (Option.some.inj (Option.some.inj hx)).symm
      · have h1 : st.1[v]? = some (some a) := (hold v a ha).mp hv
        exact hmono u a (hadj v u a h1 hadj2)
    · intro v u a hv hu
      by_cases ha : a = st.2
      · subst ha
        exact Relation.ReflTransGen.trans
          (Relation.ReflTransGen.symmetric (adjacent_symm wn) (hF3 v hv)) (hF3 u hu)
      · exact hconn v u a ((hold v a ha).mp hv) ((hold u a ha).mp hu)
    · have hx : (floodFill wn st.2 (st.1.set i (some st.2)) [i])[i]? =
          some (some st.2) := hF1 i st.2 ((hS0 i).mpr rfl)
      rw [hx]
      intro hcc
      cases Option.some.inj hcc

/-- The main loop of build_components over any index list: the invariants
hold at the end, labels are never removed, and every processed in-range index
ends up assigned. -/
theorem build_fold_inv (wn : WayNodes) (l : List Nat) :
    ∀ (st : Comp × Nat),
      st.1.length = wn.length →
      (∀ (v a : Nat), st.1[v]? = some (some a) → a < st.2) →
      (∀ (v u a : Nat), st.1[v]? = some (some a) → Adjacent wn v u →
        st.1[u]? = some (some a)) →
      (∀ (v u a : Nat), st.1[v]? = some (some a) → st.1[u]? = some (some a) →
        ConnectedWays wn v u) →
      ((l.foldl (buildStep wn) st).1.length = wn.length)
      ∧ (∀ (v u a : Nat), (l.foldl (buildStep wn) st).1[v]? = some (some a) →
          Adjacent wn v u → (l.foldl (buildStep wn) st).1[u]? = some (some a))
      ∧ (∀ (v u a : Nat), (l.foldl (buildStep wn) st).1[v]? = some (some a) →
          (l.foldl (buildStep wn) st).1[u]? = some (some a) → ConnectedWays wn v u)
      ∧ (∀ (v a : Nat), st.1[v]? = some (some a) →
          (l.foldl (buildStep wn) st).1[v]? = some (some a))
      ∧ (∀ j ∈ l, j < wn.length → (l.foldl (buildStep wn) st).1[j]? ≠ some none) := by
  induction l with
  | nil =>
    intro st hlen hlt hadj hconn
    refine ⟨hlen, hadj, hconn, fun v a h => h, ?_⟩
    intro j hj
    cases hj
  | cons j l ih =>
    intro st hlen hlt hadj hconn
    obtain ⟨slen, slt, sadj, sconn, smono, sassigned⟩ :=
      buildStep_inv wn st j hlen hlt hadj hconn
    rw [List.foldl_cons]
    obtain ⟨flen, fadj, fconn, fmono, fproc⟩ :=
      ih (buildStep wn st j) slen slt sadj sconn
    refine ⟨flen, fadj, fconn, fun v a h => fmono v a (smono v a h), ?_⟩
    intro j2 hj2 hj2w
    rcases List.mem_cons.mp hj2 with rfl | hj3
    · obtain ⟨a, ha⟩ := comp_entry_some (buildStep wn st j2).1 j2
        (by rw [slen]; exact hj2w) (sassigned hj2w)
      rw [fmono j2 a ha]
      intro hcc
      cases Option.some.inj hcc
    · exact fproc j2 hj3 hj2w

/-- C6: after build_components every way carries exactly one component id
(the invalid sentinel is gone), ways sharing an internal node carry the same
id, and two ways carry the same id exactly when they are connected through a
chain of shared internal nodes (the reflexive-transitive closure of the
shares-a-node relation). -/
theorem C6_build_components (wn : WayNodes) (w1 w2 : Nat)
    (h1 : w1 < wn.length) (h2 : w2 < wn.length) :
    (∃ a, (build_components wn)[w1]? = some (some a))
    ∧ (Adjacent wn w1 w2 →
        (build_components wn)[w1]? = (build_components wn)[w2]?)
    ∧ ((build_components wn)[w1]? = (build_components wn)[w2]? ↔
        ConnectedWays wn w1 w2) := by
  have hinit : ∀ (v a : Nat),
      (List.replicate wn.length (none : Option Nat))[v]? = some (some a) → False := by
    intro v a h
    rw [List.getElem?_replicate] at h
    by_cases hv : v < wn.length
    · rw [if_pos hv] at h
      cases Option.some.inj h
    · rw [if_neg hv] at h
      cases h
  obtain ⟨flen, fadj, fconn, -, fproc⟩ :=
    build_fold_inv wn (List.range wn.length) (List.replicate wn.length none, 0)
      (List.length_replicate wn.length none)
      (fun v a h => (hinit v a h).elim)
      (fun v u a h _ => (hinit v a h).elim)
      (fun v u a h _ => (hinit v a h).elim)
  have hbc : build_components wn =
      ((List.range wn.length).foldl (buildStep wn) (List.replicate wn.length none, 0)).1 :=
    rfl
  simp only [hbc]
  obtain ⟨a1, ha1⟩ := comp_entry_some _ w1 (by rw [flen]; exact h1)
    (fproc w1 (List.mem_range.mpr h1) h1)
  obtain ⟨a2, ha2⟩ := comp_entry_some _ w2 (by rw [flen]; exact h2)
    (fproc w2 (List.mem_range.mpr h2) h2)
  refine ⟨⟨a1, ha1⟩, ?_, ?_, ?_⟩
  · intro hadj2
    rw [ha1, fadj w1 w2 a1 ha1 hadj2]
  · intro heq
    rw [ha1] at heq
    rw [ha2] at heq
    cases Option.some.inj (Option.some.inj heq)
    exact fconn w1 w2 a1 ha1 ha2
  · intro hcw
    clear h2 ha2 a2
    induction hcw with
    | refl => rfl
    | tail hstep hadj2 ih2 =>
      rename_i b c
      rw [ih2] at ha1
      rw [ih2, ha1, fadj b c a1 ha1 hadj2]

/-- Witness for C6: ways 0 and 1 share node 0, way 2 holds node 1 alone. -/
theorem C6_build_components_witness :
    (0 : Nat) < ([[0], [0], [1]] : WayNodes).length ∧
      (1 : Nat) < ([[0], [0], [1]] : WayNodes).length ∧
      ((∃ a, (build_components [[0], [0], [1]])[0]? = some (some a))
        ∧ (Adjacent [[0], [0], [1]] 0 1 →
            (build_components [[0], [0], [1]])[0]? = (build_components [[0], [0], [1]])[1]?)
        ∧ ((build_components [[0], [0], [1]])[0]? = (build_components [[0], [0], [1]])[1]? ↔
            ConnectedWays [[0], [0], [1]] 0 1)) :=
  ⟨by decide, by decide, C6_build_components [[0], [0], [1]] 0 1 (by decide) (by decide)⟩

end osr
